import Mathlib

/-!
Verification of the CueSplitter core (src/CueSplitter.py) against its
natural-language specification.

The Python source is shallowly embedded in Lean:
  - byte strings become lists of natural numbers (each entry a byte value);
  - the RIFF metadata rewriter writeWavRiff is a pure function from the file
    bytes and the tag fields to an explicit result (untouched, format error,
    or the rewritten bytes), with the file-system side effects recorded as an
    operation list;
  - Python floats are modelled as exact rationals, with round modelled as
    round half to even (the rounding rule Python round uses);
  - split_cue is modelled as a sequential function that records the
    scheduler-visible events (job submission, the pool shutdown barrier,
    deferred tag writes) in order, with the external encoder outcomes given
    as an oracle from job index to exit status or raised exception.
-/

deriving instance DecidableEq for Except

namespace CueSplitter

/-! ### Bytes and little-endian 32-bit fields -/

/-- A byte string: a list of byte values. -/
abbrev Bytes := List Nat

/-- Little-endian encoding of a 32-bit size field, as produced by
struct.pack with format <I (defined for values below 2 ^ 32). -/
def le32enc (n : Nat) : Bytes :=
  [n % 256, n / 256 % 256, n / 65536 % 256, n / 16777216 % 256]

/-- Little-endian decoding of a 4-byte field, as struct.unpack with
format <I does on a 4-byte slice. -/
def le32dec (b : Bytes) : Nat :=
  match b with
  | [a, x, y, z] => a + 256 * x + 65536 * y + 16777216 * z
  | _ => 0

theorem length_le32enc (n : Nat) : (le32enc n).length = 4 := rfl

theorem le32dec_le32enc (n : Nat) (h : n < 4294967296) : le32dec (le32enc n) = n := by
  simp only [le32enc, le32dec]
  omega

/-! ### Fixed byte tags from the source -/

/-- The bytes of the ASCII string RIFF. -/
def riffMagic : Bytes := [82, 73, 70, 70]

/-- The bytes of the ASCII string WAVE. -/
def waveMagic : Bytes := [87, 65, 86, 69]

/-- The bytes of the ASCII string LIST. -/
def listId : Bytes := [76, 73, 83, 84]

/-- The bytes of the ASCII string INFO. -/
def infoId : Bytes := [73, 78, 70, 79]

/-- The bytes of the ASCII string INAM. -/
def inamId : Bytes := [73, 78, 65, 77]

/-- The bytes of the ASCII string IART. -/
def iartId : Bytes := [73, 65, 82, 84]

/-- The bytes of the ASCII string IPRD. -/
def iprdId : Bytes := [73, 80, 82, 68]

/-- The bytes of the ASCII string ITRK. -/
def itrkId : Bytes := [73, 84, 82, 75]

/-- The bytes of the ASCII string IDIS. -/
def idisId : Bytes := [73, 68, 73, 83]

/-- Byte encoding of a text in the configured character encoding: the model
keeps the encoder abstract as a function from strings to bytes.  For the
concrete witnesses we use the encoding of ASCII text, one byte per
character. -/
def asciiEnc (s : String) : Bytes := s.data.map Char.toNat

/-! ### make_subchunk (source lines 41 to 47) -/

/-- Truthiness of an optional Python string: None and the empty string are
falsy, every other string is truthy. -/
def truthy (s : Option String) : Bool :=
  match s with
  | none => false
  | some t => t != ""

/-- Embedding of make_subchunk: encode one INFO sub-chunk for a tag field,
or nothing when the text is None or empty.  The declared size counts the
encoded text plus the NUL terminator; a pad byte follows when that size is
odd. -/
def make_subchunk (tag : Bytes) (text : Option String) (enc : String → Bytes) : Bytes :=
  match text with
  | none => []
  | some t =>
    if t = "" then []
    else
      let data := enc t ++ [0]
      let size := data.length
      let pad : Bytes := if size % 2 = 1 then [0] else []
      tag ++ le32enc size ++ data ++ pad

/-! ### The chunk walk of write_wav_riff (source lines 62 to 81) -/

/-- Embedding of the chunk walk in write_wav_riff, expressed on the suffix
of the file that starts at the current position (the source indexes the
whole buffer at offsets from pos; every access is at pos plus a constant,
so the walk on the suffix is the same computation).  A chunk whose declared
size runs past the end of the buffer is kept whole as an opaque tail; a
LIST chunk whose first four data bytes are INFO is dropped; every other
chunk is kept, its bytes followed by a zero pad byte when its declared size
is odd.  Fewer than 8 remaining bytes end the walk. -/
def riffWalkF : ℕ → Bytes → List Bytes
  | 0, _ => []
  | fuel + 1, rest =>
    if rest.length < 8 then []
    else
      let csz := le32dec ((rest.drop 4).take 4)
      if 8 + csz > rest.length then [rest]
      else
        let chunk := rest.take (8 + csz) ++ (if csz % 2 = 1 then ([0] : Bytes) else [])
        let next := rest.drop (8 + csz + csz % 2)
        if rest.take 4 = listId ∧ (rest.drop 8).take 4 = infoId then riffWalkF fuel next
        else chunk :: riffWalkF fuel next

/-- The chunk walk, with the byte count of the buffer as the fuel: every
step consumes at least 8 bytes, so the fuel never runs out (fuel
irrelevance is proved below). -/
def riffWalk (rest : Bytes) : List Bytes := riffWalkF rest.length rest

/-- Any fuel at least the length of the buffer computes the same walk. -/
theorem riffWalkF_fuel (f1 : ℕ) : ∀ (f2 : ℕ) (rest : Bytes),
    rest.length ≤ f1 → rest.length ≤ f2 → riffWalkF f1 rest = riffWalkF f2 rest := by
  induction f1 with
  | zero =>
    intro f2 rest h1 h2
    have hz : rest.length < 8 := by omega
    cases f2 with
    | zero => rfl
    | succ f2 => simp [riffWalkF, hz]
  | succ f1 ih =>
    intro f2 rest h1 h2
    cases f2 with
    | zero =>
      have hz : rest.length < 8 := by omega
      simp [riffWalkF, hz]
    | succ f2 =>
      simp only [riffWalkF]
      by_cases h8 : rest.length < 8
      · simp [h8]
      · simp only [if_neg h8]
        by_cases htr : 8 + le32dec ((rest.drop 4).take 4) > rest.length
        · simp [htr]
        · simp only [if_neg htr]
          have hnl : (rest.drop (8 + le32dec ((rest.drop 4).take 4)
              + le32dec ((rest.drop 4).take 4) % 2)).length ≤ f1 := by
            simp only [List.length_drop]
            omega
          have hnl2 : (rest.drop (8 + le32dec ((rest.drop 4).take 4)
              + le32dec ((rest.drop 4).take 4) % 2)).length ≤ f2 := by
            simp only [List.length_drop]
            omega
          have hrec := ih f2 _ hnl hnl2
          by_cases hinfo : rest.take 4 = listId ∧ (rest.drop 8).take 4 = infoId
          · simp only [if_pos hinfo]
            exact hrec
          · simp only [if_neg hinfo]
            rw [hrec]

/-! ### write_wav_riff (source lines 50 to 119) -/

/-- The new LIST INFO chunk built by write_wav_riff (source lines 84 to
103): the sub-chunks of the non-empty fields among title, artist, album,
the track number rendered as text, and the disc number rendered as text,
concatenated after the INFO sub-type marker; empty when no sub-chunk was
produced; padded with one zero byte when the declared size is odd. -/
def newInfoChunk (title artist album : Option String) (enc : String → Bytes)
    (track disc : Option Int) : Bytes :=
  let parts : Bytes :=
    make_subchunk inamId title enc
      ++ make_subchunk iartId artist enc
      ++ make_subchunk iprdId album enc
      ++ (match track with
          | some n => make_subchunk itrkId (some (toString n)) enc
          | none => [])
      ++ (match disc with
          | some n => make_subchunk idisId (some (toString n)) enc
          | none => [])
  let infoBody := infoId ++ parts
  if infoBody.length = 4 then []
  else
    listId ++ le32enc infoBody.length ++ infoBody
      ++ (if infoBody.length % 2 = 1 then ([0] : Bytes) else [])

/-- Result of one call of write_wav_riff on a file. -/
inductive RiffResult where
  /-- The function returned before reading the file: no tag field among
  title, artist and album was non-empty. -/
  | untouched : RiffResult
  /-- The function raised the format error: the container or format magic
  did not match.  The file was read but never written. -/
  | formatError : RiffResult
  /-- The function rebuilt the file; the argument is the complete new byte
  sequence written to the temporary file and renamed over the original. -/
  | rewritten (out : Bytes) : RiffResult
deriving DecidableEq

/-- Embedding of write_wav_riff as a pure function from the file bytes and
the tag arguments to the result.  Mirrors the source: early return when
title, artist and album are all empty; magic check on bytes 0 to 4 and 8 to
12; chunk walk from byte 12 dropping the old LIST INFO chunk; new chunk
from the tag fields; body reassembled as WAVE plus kept chunks plus the new
chunk, prefixed by RIFF and the little-endian body length. -/
def write_wav_riff (fileData : Bytes) (title artist album : Option String)
    (enc : String → Bytes) (track disc : Option Int) : RiffResult :=
  if ¬ (truthy title ∨ truthy artist ∨ truthy album) then .untouched
  else if ¬ (fileData.take 4 = riffMagic ∧ (fileData.drop 8).take 4 = waveMagic) then
    .formatError
  else
    let kept := riffWalk (fileData.drop 12)
    let body := waveMagic ++ kept.flatten ++ newInfoChunk title artist album enc track disc
    .rewritten (riffMagic ++ le32enc body.length ++ body)

/-- File-system operations performed by one call of write_wav_riff, in
order.  The file is read only after the early-return check; the temporary
file is written and renamed over the original only after the whole new byte
sequence is built; on the format error nothing is written. -/
inductive FsOp where
  | readFile : FsOp
  | writeTmp (out : Bytes) : FsOp
  | replaceTmp : FsOp
deriving DecidableEq

/-- The operation trace of write_wav_riff, derived from its result: the
early return touches nothing, the format error path only reads, and the
successful path reads, writes the temporary file and renames it. -/
def write_wav_riff_ops (fileData : Bytes) (title artist album : Option String)
    (enc : String → Bytes) (track disc : Option Int) : List FsOp :=
  match write_wav_riff fileData title artist album enc track disc with
  | .untouched => []
  | .formatError => [.readFile]
  | .rewritten out => [.readFile, .writeTmp out, .replaceTmp]

/-! ### Well-formed chunk sequences -/

/-- A chunk of a well-formed RIFF file, given by its 4-byte id and its
payload. -/
structure RChunk where
  cid : Bytes
  payload : Bytes
deriving DecidableEq

/-- The on-disk encoding of a chunk: id, little-endian payload size, the
payload, and one zero pad byte when the payload size is odd. -/
def mkChunk (c : RChunk) : Bytes :=
  c.cid ++ le32enc c.payload.length ++ c.payload
    ++ (if c.payload.length % 2 = 1 then ([0] : Bytes) else [])

/-- Whether a chunk is the LIST INFO metadata chunk that write_wav_riff
strips. -/
def isInfoChunk (c : RChunk) : Bool :=
  decide (c.cid = listId ∧ c.payload.take 4 = infoId)

theorem length_mkChunk (c : RChunk) (h4 : c.cid.length = 4) :
    (mkChunk c).length = 8 + c.payload.length + c.payload.length % 2 := by
  simp only [mkChunk, List.length_append, h4, length_le32enc]
  split <;> simp <;> omega

/-- The walk stops at once on fewer than 8 remaining bytes, keeping
nothing. -/
theorem riffWalk_short (t : Bytes) (h : t.length < 8) : riffWalk t = [] := by
  unfold riffWalk
  cases hL : t.length with
  | zero => rfl
  | succ m => simp [riffWalkF, h]

/-- One step of the chunk walk across a well-formed chunk: a LIST INFO
chunk is dropped, every other chunk is kept with its encoding unchanged,
and the walk continues after it.  The LIST hypothesis reflects that in a
well-formed file a LIST chunk always carries a 4-byte form type (without
it, the source compares bytes that spill into the following chunk). -/
theorem riffWalk_mkChunk_append (c : RChunk) (rest : Bytes)
    (h4 : c.cid.length = 4) (hsz : c.payload.length < 4294967296)
    (hlist : c.cid = listId → 4 ≤ c.payload.length) :
    riffWalk (mkChunk c ++ rest) =
      if isInfoChunk c then riffWalk rest else mkChunk c :: riffWalk rest := by
  have hmk : (mkChunk c).length = 8 + c.payload.length + c.payload.length % 2 :=
    length_mkChunk c h4
  have hlen : ¬ (mkChunk c ++ rest).length < 8 := by
    simp only [List.length_append, hmk]; omega
  have htake4 : (mkChunk c ++ rest).take 4 = c.cid := by
    simp only [mkChunk, List.append_assoc]
    exact List.take_left' h4
  have hdrop4 : ((mkChunk c ++ rest).drop 4).take 4 = le32enc c.payload.length := by
    simp only [mkChunk, List.append_assoc]
    rw [List.drop_left' h4]
    exact List.take_left' (length_le32enc _)
  have hcsz : le32dec (((mkChunk c ++ rest).drop 4).take 4) = c.payload.length := by
    rw [hdrop4]; exact le32dec_le32enc _ hsz
  have htrunc : ¬ 8 + c.payload.length > (mkChunk c ++ rest).length := by
    simp only [List.length_append, hmk]; omega
  have hchunk : (mkChunk c ++ rest).take (8 + c.payload.length)
      = c.cid ++ le32enc c.payload.length ++ c.payload := by
    have hpre : (c.cid ++ le32enc c.payload.length ++ c.payload).length
        = 8 + c.payload.length := by
      simp [h4, length_le32enc]; omega
    have : mkChunk c ++ rest
        = (c.cid ++ le32enc c.payload.length ++ c.payload)
          ++ ((if c.payload.length % 2 = 1 then ([0] : Bytes) else []) ++ rest) := by
      simp [mkChunk, List.append_assoc]
    rw [this]
    exact List.take_left' hpre
  have hnext : (mkChunk c ++ rest).drop (8 + c.payload.length + c.payload.length % 2)
      = rest := List.drop_left' hmk
  have hdrop8 : (mkChunk c ++ rest).drop 8
      = c.payload ++ ((if c.payload.length % 2 = 1 then ([0] : Bytes) else []) ++ rest) := by
    have hpre : (c.cid ++ le32enc c.payload.length).length = 8 := by
      simp [h4, length_le32enc]
    have : mkChunk c ++ rest
        = (c.cid ++ le32enc c.payload.length)
          ++ (c.payload ++ ((if c.payload.length % 2 = 1 then ([0] : Bytes) else []) ++ rest)) := by
      simp [mkChunk, List.append_assoc]
    rw [this]
    exact List.drop_left' hpre
  obtain ⟨m, hm⟩ : ∃ m, (mkChunk c ++ rest).length = m + 1 :=
    ⟨(mkChunk c ++ rest).length - 1, by omega⟩
  have hrestlen : rest.length ≤ m := by
    simp only [List.length_append, hmk] at hm
    omega
  have hfold : riffWalkF m rest = riffWalkF rest.length rest :=
    riffWalkF_fuel m rest.length rest hrestlen (le_refl _)
  unfold riffWalk
  rw [hm]
  simp only [riffWalkF]
  rw [if_neg hlen]
  simp only [hcsz]
  rw [if_neg htrunc]
  simp only [htake4, hdrop8, hchunk, hnext, hfold]
  by_cases hcid : c.cid = listId
  · have hp4 : 4 ≤ c.payload.length := hlist hcid
    have hptake : (c.payload
        ++ ((if c.payload.length % 2 = 1 then ([0] : Bytes) else []) ++ rest)).take 4
        = c.payload.take 4 := List.take_append_of_le_length hp4
    rw [hptake]
    by_cases hinfo : c.payload.take 4 = infoId
    · rw [if_pos ⟨hcid, hinfo⟩]
      simp [isInfoChunk, hcid, hinfo]
    · rw [if_neg (by
        intro hand
        exact hinfo hand.2)]
      have : isInfoChunk c = false := by
        simp [isInfoChunk, hinfo]
      rw [this]
      simp only [Bool.false_eq_true, if_false, mkChunk, List.append_assoc]
  · rw [if_neg (by
      intro hand
      exact hcid hand.1)]
    have : isInfoChunk c = false := by
      simp [isInfoChunk, hcid]
    rw [this]
    simp only [Bool.false_eq_true, if_false, mkChunk, List.append_assoc]

/-- The chunk walk over a well-formed chunk sequence followed by any tail:
the kept chunks are exactly the chunks that are not LIST INFO chunks, in
their original order and with their exact original bytes, and the walk
continues independently on the tail. -/
theorem riffWalk_flatten_append (cs : List RChunk) (t : Bytes)
    (hc : ∀ c ∈ cs, c.cid.length = 4 ∧ c.payload.length < 4294967296
      ∧ (c.cid = listId → 4 ≤ c.payload.length)) :
    riffWalk ((cs.map mkChunk).flatten ++ t)
      = ((cs.filter (fun c => ! isInfoChunk c)).map mkChunk) ++ riffWalk t := by
  induction cs with
  | nil => simp
  | cons c cs ih =>
    have hcHead := hc c (List.mem_cons_self c cs)
    have hcTail : ∀ x ∈ cs, x.cid.length = 4 ∧ x.payload.length < 4294967296
        ∧ (x.cid = listId → 4 ≤ x.payload.length) :=
      fun x hx => hc x (List.mem_cons_of_mem c hx)
    simp only [List.map_cons, List.flatten_cons, List.append_assoc]
    rw [riffWalk_mkChunk_append c _ hcHead.1 hcHead.2.1 hcHead.2.2]
    by_cases hinfo : isInfoChunk c
    · rw [if_pos hinfo]
      rw [ih hcTail]
      simp [List.filter_cons, hinfo]
    · rw [if_neg hinfo]
      rw [ih hcTail]
      simp only [List.filter_cons]
      simp [hinfo]

/-! ### msf2seconds (source lines 21 to 22) -/

/-- Round half to even on exact rationals, the rounding rule of Python
round: values below the midpoint round down, above it round up, and the
exact midpoint rounds to the even neighbour. -/
def roundHalfEven (q : ℚ) : ℤ :=
  let n := ⌊q⌋
  let r := q - n
  if r < 1 / 2 then n
  else if 1 / 2 < r then n + 1
  else if n % 2 = 0 then n else n + 1

/-- Rounding a rational to a number of decimal digits, the model of Python
round with an ndigits argument over exact rationals. -/
def pyRound (q : ℚ) (ndigits : ℕ) : ℚ :=
  (roundHalfEven (q * 10 ^ ndigits) : ℚ) / 10 ^ ndigits

/-- Embedding of msf2seconds: minutes times 60 plus seconds plus frames
divided by 75, rounded to ndigits decimal digits (default 2).  Python
floats are modelled as exact rationals. -/
def msf2seconds (msf : ℕ × ℕ × ℕ) (ndigits : ℕ := 2) : ℚ :=
  pyRound ((msf.1 : ℚ) * 60 + (msf.2.1 : ℚ) + (msf.2.2 : ℚ) / 75) ndigits

theorem roundHalfEven_le (q : ℚ) : (roundHalfEven q : ℚ) ≤ q + 1 / 2 := by
  have hfl : (⌊q⌋ : ℚ) ≤ q := Int.floor_le q
  have hfu : q < (⌊q⌋ : ℚ) + 1 := Int.lt_floor_add_one q
  simp only [roundHalfEven]
  split
  · linarith
  · split
    · push_cast
      linarith
    · split <;> push_cast <;> linarith

theorem le_roundHalfEven (q : ℚ) : q - 1 / 2 ≤ (roundHalfEven q : ℚ) := by
  have hfl : (⌊q⌋ : ℚ) ≤ q := Int.floor_le q
  have hfu : q < (⌊q⌋ : ℚ) + 1 := Int.lt_floor_add_one q
  simp only [roundHalfEven]
  split
  · linarith
  · split
    · push_cast
      linarith
    · split <;> push_cast <;> linarith

/-- Rounding is strictly monotone across a gap larger than one unit. -/
theorem roundHalfEven_lt_of_gap (x y : ℚ) (h : x + 1 < y) :
    roundHalfEven x < roundHalfEven y := by
  have hx := roundHalfEven_le x
  have hy := le_roundHalfEven y
  have : (roundHalfEven x : ℚ) < (roundHalfEven y : ℚ) := by linarith
  exact_mod_cast this

/-! ### The split_cue scheduler model (source lines 121 to 259) -/

/-- The CD-TEXT fields of a disc or a track, as exposed by the external
cue-parsing collaborator. -/
structure CdText where
  title : Option String
  performer : Option String
  composer : Option String
  genre : Option String
deriving DecidableEq

/-- One track of the parsed cue sheet: number, start and length timestamps
(minute, second, frame triples), the referenced audio file name, and the
track-level CD-TEXT. -/
structure Track where
  track_number : Option Int
  start : Option (ℕ × ℕ × ℕ)
  length : Option (ℕ × ℕ × ℕ)
  filename : Option String
  cdtext : CdText
deriving DecidableEq

/-- The parsed cue sheet: disc-level CD-TEXT, the date remark, and the
track list. -/
structure Cd where
  cdtext : CdText
  date : Option String
  tracks : List Track
deriving DecidableEq

/-- The output container formats split_cue supports. -/
inductive AudioFormat where
  | wav : AudioFormat
  | mp3 : AudioFormat
  | flac : AudioFormat
deriving DecidableEq

/-- The file extension string of a format. -/
def extStr (f : AudioFormat) : String :=
  match f with
  | .wav => "wav"
  | .mp3 => "mp3"
  | .flac => "flac"

/-- The keyword options of split_cue that the sequential model observes.
The worker-pool width (1 for the wav format, the jobs option otherwise)
only bounds parallelism and has no observable effect in the sequential
embedding, so it is not carried. -/
structure Opts where
  audio_file : Option String
  output_dir : String
  format : AudioFormat
  overwrite : Bool
  no_metadata : Bool
  track_offset : Int
  write_disc : Bool
  disc_number : Option Int
deriving DecidableEq

/-- Model of os.path.join on a directory and a relative file name. -/
def pathJoin (a b : String) : String := a ++ "/" ++ b

/-- Model of the Python format {n:02d}: at least two digits, zero padded. -/
def fmt02 (n : Int) : String :=
  if 0 ≤ n ∧ n < 10 then "0" ++ toString n else toString n

/-- Model of os.path.basename: the component after the last slash. -/
def pathBasename (s : String) : String := (s.splitOn "/").getLastD s

/-- Model of the stem part of os.path.splitext on a basename: everything
before the last dot, where leading dots never start an extension. -/
def splitextStem (b : String) : String :=
  let cs := b.data
  let lead := cs.takeWhile (fun c => c = '.')
  let rest := cs.drop lead.length
  if rest.contains '.' then
    String.mk (lead ++ ((rest.reverse.dropWhile (fun c => c ≠ '.')).drop 1).reverse)
  else b

/-- The errors split_cue raises while building the job plan, and the
re-raised exception of a job whose encoder invocation itself raised. -/
inductive RunError where
  /-- ValueError: the track has no start time (source lines 165 to 168). -/
  | noTiming (track_number : Option Int) : RunError
  /-- FileNotFoundError: neither a shared audio file nor a track file name
  is available (source line 174). -/
  | noAudioFile (track_number : Option Int) : RunError
  /-- FileNotFoundError: the resolved input file does not exist (source
  lines 175 to 178). -/
  | inputMissing (p : String) : RunError
  /-- An exception raised by the encoder invocation of a job, re-raised by
  the final verdict computation. -/
  | jobError (e : String) : RunError
deriving DecidableEq

/-- The scheduler-visible events of one run, in order. -/
inductive Event where
  /-- Job number idx was submitted to the worker pool with the given output
  path (source line 215). -/
  | submit (idx : ℕ) (outPath : String) : Event
  /-- The pool was shut down with wait, so every submitted job has resolved
  (source line 227). -/
  | poolShutdown : Event
  /-- The deferred tag pass rewrote the RIFF metadata of the given output
  file and handed it to the tag library (source lines 230 to 252). -/
  | tagWrite (idx : ℕ) (outPath : String) : Event
deriving DecidableEq

/-- One retained entry of the pending wav list (source line 226): the job
index standing for its future, the output path, and the tag values in the
order of the source tuple. -/
structure Pending where
  idx : ℕ
  outPath : String
  artist : Option String
  album : Option String
  title : Option String
  track : Int
  disc : Option Int
deriving DecidableEq

/-- The per-track structural checks of the planning loop, in source order
(lines 164 to 178): a missing start time raises, then the audio source is
resolved (the shared audio file first, else the track file name joined to
the cue directory, else an error), then the resolved path must exist.  On
success the resolved input path is returned. -/
def trackCheck (cueDir : String) (o : Opts) (fileExists : String → Bool)
    (tr : Track) : Except RunError String :=
  match tr.start with
  | none => .error (.noTiming tr.track_number)
  | some _ =>
    match o.audio_file with
    | some a => if fileExists a then .ok a else .error (.inputMissing a)
    | none =>
      match tr.filename with
      | some fn =>
        let f := pathJoin cueDir fn
        if fileExists f then .ok f else .error (.inputMissing f)
      | none => .error (.noAudioFile tr.track_number)

/-- The output path of a track (source lines 202 to 213): the applied
track number is the raw number (0 when absent) plus the offset; with
metadata suppressed the name is the input stem, an underscore and the
applied number, otherwise the applied number, a dash and the track title
(Unknown when absent). -/
def outputPath (o : Opts) (inputFile : String) (tr : Track) : String :=
  let displayTrack := tr.track_number.getD 0 + o.track_offset
  pathJoin o.output_dir
    (if o.no_metadata then
      splitextStem (pathBasename inputFile) ++ "_" ++ fmt02 displayTrack
        ++ "." ++ extStr o.format
    else
      fmt02 displayTrack ++ " - " ++ (tr.cdtext.title.getD "Unknown")
        ++ "." ++ extStr o.format)

/-- The pending entry retained for one track (source lines 220 to 226). -/
def pendingOf (cd : Cd) (o : Opts) (i : ℕ) (out : String) (tr : Track) : List Pending :=
  if o.format = .wav ∧ ¬ o.no_metadata then
    [⟨i, out, cd.cdtext.performer, cd.cdtext.title, tr.cdtext.title,
      tr.track_number.getD 0 + o.track_offset,
      if o.write_disc then o.disc_number else none⟩]
  else []

/-- The planning loop of split_cue (source lines 163 to 226): walks the
track list in order, running the structural checks and submitting one
encoder job per track; for the wav format with metadata enabled it also
retains the pending tag entry.  The first failing check aborts the run,
keeping the submissions already made; no job is submitted for the failing
track or any later track. -/
def buildJobs (cueDir : String) (cd : Cd) (o : Opts) (fileExists : String → Bool) :
    List Track → ℕ → List Event × Except RunError (List Pending)
  | [], _ => ([], .ok [])
  | tr :: rest, i =>
    match trackCheck cueDir o fileExists tr with
    | .error e => ([], .error e)
    | .ok inputFile =>
      match buildJobs cueDir cd o fileExists rest (i + 1) with
      | (evs, .error e) => (.submit i (outputPath o inputFile tr) :: evs, .error e)
      | (evs, .ok ps) =>
        (.submit i (outputPath o inputFile tr) :: evs,
          .ok (pendingOf cd o i (outputPath o inputFile tr) tr ++ ps))

/-- The final verdict computation (source line 259): all with a generator
over the futures in submission order, with short-circuit evaluation.  The
first future whose result is an exception re-raises it; the first nonzero
exit status before that yields false without touching later futures; when
every result is zero the verdict is true. -/
def verdict : List (Except String Int) → Except String Bool
  | [] => .ok true
  | .error e :: _ => .error e
  | .ok r :: rest => if r = 0 then verdict rest else .ok false

/-- The deferred tag pass (source lines 229 to 258): walk the pending wav
entries in order; an entry whose job resolved with exit status zero gets
its tag write; a nonzero status skips the entry, and an exception raised
by the future is caught and only logged, so it too skips the entry. -/
def tagEvents (outcomes : ℕ → Except String Int) (pend : List Pending) : List Event :=
  pend.filterMap (fun p =>
    match outcomes p.idx with
    | .ok r => if r = 0 then some (Event.tagWrite p.idx p.outPath) else none
    | .error _ => none)

/-- The sequential model of split_cue after the cue sheet is parsed.  The
outcomes oracle gives each job index the exit status of its encoder
invocation, or the exception it raised.  The result is the ordered event
trace together with the returned verdict or the raised error.  Mirrors the
source: the planning loop submits all jobs (aborting on a structural
error), the pool is shut down with wait, the deferred pass walks the
pending wav entries writing tags exactly for jobs with exit status zero
(every exception in the pass is caught), and finally the verdict is
computed over all futures. -/
def split_cue (cueDir : String) (cd : Cd) (o : Opts) (fileExists : String → Bool)
    (outcomes : ℕ → Except String Int) : List Event × Except RunError Bool :=
  match buildJobs cueDir cd o fileExists cd.tracks 0 with
  | (evs, .error e) => (evs, .error e)
  | (evs, .ok pend) =>
    (evs ++ Event.poolShutdown :: tagEvents outcomes pend,
      match verdict ((List.range cd.tracks.length).map outcomes) with
      | .error e => .error (.jobError e)
      | .ok b => .ok b)

/-! ### Claim C8 -/

/-- C8: for all frame triples (m, s, f) with s below 60 and f below 75,
msf2seconds returns m times 60 plus s plus f divided by 75 rounded to the
configured number of decimal digits (default 2), and at the default
precision the result is strictly monotone in the total frame count
m times 4500 plus s times 75 plus f. -/
theorem msf2seconds_formula_monotone
    (m s f m2 s2 f2 : ℕ) (hs : s < 60) (hf : f < 75) (hs2 : s2 < 60) (hf2 : f2 < 75)
    (hlt : m * 4500 + s * 75 + f < m2 * 4500 + s2 * 75 + f2) :
    (∀ nd : ℕ, msf2seconds (m, s, f) nd
      = pyRound ((m : ℚ) * 60 + (s : ℚ) + (f : ℚ) / 75) nd)
    ∧ msf2seconds (m, s, f) < msf2seconds (m2, s2, f2) := by
  constructor
  · intro nd
    rfl
  · have hq1 : (m : ℚ) * 60 + (s : ℚ) + (f : ℚ) / 75
        = ((m * 4500 + s * 75 + f : ℕ) : ℚ) / 75 := by
      push_cast
      field_simp
      ring
    have hq2 : (m2 : ℚ) * 60 + (s2 : ℚ) + (f2 : ℚ) / 75
        = ((m2 * 4500 + s2 * 75 + f2 : ℕ) : ℚ) / 75 := by
      push_cast
      field_simp
      ring
    have hstep : ((m * 4500 + s * 75 + f : ℕ) : ℚ) + 1
        ≤ ((m2 * 4500 + s2 * 75 + f2 : ℕ) : ℚ) := by
      have : m * 4500 + s * 75 + f + 1 ≤ m2 * 4500 + s2 * 75 + f2 := hlt
      exact_mod_cast this
    have hgap : ((m : ℚ) * 60 + (s : ℚ) + (f : ℚ) / 75) * 10 ^ 2 + 1
        < ((m2 : ℚ) * 60 + (s2 : ℚ) + (f2 : ℚ) / 75) * 10 ^ 2 := by
      rw [hq1, hq2]
      norm_num
      linarith
    have hR := roundHalfEven_lt_of_gap _ _ hgap
    have hRq : (roundHalfEven (((m : ℚ) * 60 + (s : ℚ) + (f : ℚ) / 75) * 10 ^ 2) : ℚ)
        < (roundHalfEven (((m2 : ℚ) * 60 + (s2 : ℚ) + (f2 : ℚ) / 75) * 10 ^ 2) : ℚ) := by
      exact_mod_cast hR
    simp only [msf2seconds, pyRound]
    norm_num at hRq ⊢
    have hRq2 : (roundHalfEven (((m : ℚ) * 60 + (s : ℚ) + (f : ℚ) / 75) * 100) : ℚ)
        < (roundHalfEven (((m2 : ℚ) * 60 + (s2 : ℚ) + (f2 : ℚ) / 75) * 100) : ℚ) := by
      exact_mod_cast hRq
    linarith

/-- Witness for C8 at the concrete triples (0, 0, 0) and (0, 0, 1). -/
theorem msf2seconds_formula_monotone_witness :
    msf2seconds (0, 0, 0) < msf2seconds (0, 0, 1) :=
  (msf2seconds_formula_monotone 0 0 0 0 0 1 (by decide) (by decide) (by decide)
    (by decide) (by decide)).2

/-! ### Claim C5 -/

/-- C5: whenever write_wav_riff produces an output byte sequence, the
4-byte little-endian size field at bytes 4 to 8 equals the length of
everything after the initial 8-byte header, that is the total output
length minus 8.  The length bound reflects that struct.pack raises on
values of 2 to the 32 or more, so no larger output is ever produced. -/
theorem write_wav_riff_size_field (fileData : Bytes) (title artist album : Option String)
    (enc : String → Bytes) (track disc : Option Int) (out : Bytes)
    (hrw : write_wav_riff fileData title artist album enc track disc = .rewritten out)
    (hlen : out.length < 4294967304) :
    le32dec ((out.drop 4).take 4) = out.length - 8 := by
  simp only [write_wav_riff] at hrw
  split_ifs at hrw with h1 h2
  · injection hrw with h
    subst h
    rw [List.append_assoc, List.drop_left' (show riffMagic.length = 4 from rfl),
      List.take_left' (length_le32enc _), le32dec_le32enc]
    · simp [riffMagic, List.length_append, length_le32enc]
    · simp only [riffMagic, List.length_append, length_le32enc, List.length_cons,
        List.length_nil] at hlen ⊢
      omega

/-- Witness for C5: a minimal container with only a title tag; the declared
size field of the 34-byte output decodes to 26. -/
theorem write_wav_riff_size_field_witness :
    write_wav_riff (riffMagic ++ le32enc 4 ++ waveMagic) (some "T") none none asciiEnc none none
      = .rewritten [82, 73, 70, 70, 26, 0, 0, 0, 87, 65, 86, 69, 76, 73, 83, 84, 14, 0, 0, 0,
          73, 78, 70, 79, 73, 78, 65, 77, 2, 0, 0, 0, 84, 0]
    ∧ le32dec (([82, 73, 70, 70, 26, 0, 0, 0, 87, 65, 86, 69, 76, 73, 83, 84, 14, 0, 0, 0,
          73, 78, 70, 79, 73, 78, 65, 77, 2, 0, 0, 0, 84, 0] : Bytes).drop 4 |>.take 4)
      = ([82, 73, 70, 70, 26, 0, 0, 0, 87, 65, 86, 69, 76, 73, 83, 84, 14, 0, 0, 0,
          73, 78, 70, 79, 73, 78, 65, 77, 2, 0, 0, 0, 84, 0] : Bytes).length - 8 :=
  ⟨by decide,
    write_wav_riff_size_field (riffMagic ++ le32enc 4 ++ waveMagic) (some "T") none none
      asciiEnc none none _ (by decide) (by decide)⟩

/-! ### Claim C7 -/

/-- C7: on an input whose first 4 bytes are not the container magic RIFF
or whose bytes 8 to 12 are not the format magic WAVE, write_wav_riff
raises the format error, and its only file-system operation is the read:
no bytes are written to the file and no temporary file is created, so
nothing can be left behind.  The truthiness hypothesis states that a
rewrite was actually requested; with no tag field at all the function
returns before even reading the file. -/
theorem write_wav_riff_bad_magic (fileData : Bytes) (title artist album : Option String)
    (enc : String → Bytes) (track disc : Option Int)
    (hgo : truthy title = true ∨ truthy artist = true ∨ truthy album = true)
    (hbad : ¬ (fileData.take 4 = riffMagic ∧ (fileData.drop 8).take 4 = waveMagic)) :
    write_wav_riff fileData title artist album enc track disc = .formatError
    ∧ write_wav_riff_ops fileData title artist album enc track disc = [.readFile] := by
  have h1 : write_wav_riff fileData title artist album enc track disc = .formatError := by
    simp only [write_wav_riff]
    rw [if_neg (not_not_intro hgo), if_pos hbad]
  exact ⟨h1, by simp [write_wav_riff_ops, h1]⟩

/-- Witness for C7 at the 3-byte input 1, 2, 3 with a title tag. -/
theorem write_wav_riff_bad_magic_witness :
    write_wav_riff [1, 2, 3] (some "T") none none asciiEnc none none = .formatError
    ∧ write_wav_riff_ops [1, 2, 3] (some "T") none none asciiEnc none none = [.readFile] :=
  write_wav_riff_bad_magic [1, 2, 3] (some "T") none none asciiEnc none none
    (Or.inl (by decide)) (by decide)

/-! ### Claims C4 and C9 -/

/-- Decomposition of a well-formed container into its prefix and chunk
area: the container magic, any 4-byte declared size (the source never reads
it), the format magic, and the encoded chunks. -/
theorem wav_take_drop (sz : Bytes) (body : Bytes) (hsz : sz.length = 4) :
    (riffMagic ++ sz ++ waveMagic ++ body).take 4 = riffMagic
    ∧ ((riffMagic ++ sz ++ waveMagic ++ body).drop 8).take 4 = waveMagic
    ∧ (riffMagic ++ sz ++ waveMagic ++ body).drop 12 = body := by
  refine ⟨?_, ?_, ?_⟩
  · rw [List.append_assoc, List.append_assoc]
    exact List.take_left' rfl
  · rw [List.append_assoc (riffMagic ++ sz) waveMagic body,
      List.drop_left' (show (riffMagic ++ sz).length = 8 by simp [riffMagic, hsz])]
    exact List.take_left' rfl
  · exact List.drop_left' (by simp [riffMagic, waveMagic, hsz])

/-- C4: on a well-formed container, every chunk that is not the LIST INFO
metadata chunk appears in the rebuilt output byte for byte as in the
original (its trailing pad byte included, which on a well-formed file is
the zero byte of the chunk encoding), in the original relative order, and
the new metadata chunk, when present, is the last thing in the output,
after all kept chunks.  Well-formedness of the input is expressed by
building it from a chunk list: the container and format magic, an
arbitrary 4-byte declared size (the rewriter never reads it), and the
concatenated chunk encodings, where every chunk id is 4 bytes, every
payload fits the 32-bit size field, and a LIST chunk carries at least its
4-byte form type. -/
theorem write_wav_riff_preserves_chunks (cs : List RChunk) (sz : Bytes)
    (title artist album : Option String) (enc : String → Bytes) (track disc : Option Int)
    (hsz : sz.length = 4)
    (hc : ∀ c ∈ cs, c.cid.length = 4 ∧ c.payload.length < 4294967296
      ∧ (c.cid = listId → 4 ≤ c.payload.length))
    (hgo : truthy title = true ∨ truthy artist = true ∨ truthy album = true) :
    write_wav_riff (riffMagic ++ sz ++ waveMagic ++ (cs.map mkChunk).flatten)
        title artist album enc track disc
      = .rewritten (riffMagic
          ++ le32enc (waveMagic
              ++ ((cs.filter (fun c => ! isInfoChunk c)).map mkChunk).flatten
              ++ newInfoChunk title artist album enc track disc).length
          ++ (waveMagic
              ++ ((cs.filter (fun c => ! isInfoChunk c)).map mkChunk).flatten
              ++ newInfoChunk title artist album enc track disc)) := by
  obtain ⟨ht4, ht8, ht12⟩ := wav_take_drop sz ((cs.map mkChunk).flatten) hsz
  have hwalk : riffWalk ((cs.map mkChunk).flatten)
      = (cs.filter (fun c => ! isInfoChunk c)).map mkChunk := by
    have h0 := riffWalk_flatten_append cs [] hc
    rw [List.append_nil] at h0
    rw [h0, riffWalk_short [] (by simp)]
    exact List.append_nil _
  simp only [write_wav_riff]
  rw [if_neg (not_not_intro hgo), if_neg (not_not_intro ⟨ht4, ht8⟩), ht12, hwalk]

/-- Witness chunk for C4 and C9: an ordinary data chunk. -/
def dataChunkEx : RChunk := ⟨[100, 97, 116, 97], [7, 8]⟩

/-- Witness chunk for C4 and C9: an old LIST INFO chunk, to be stripped. -/
def infoChunkEx : RChunk := ⟨listId, [73, 78, 70, 79]⟩

/-- Witness for C4: a container holding an old LIST INFO chunk and a data
chunk; the data chunk is kept byte for byte and the old metadata chunk is
replaced by the new one, appended last. -/
theorem write_wav_riff_preserves_chunks_witness :
    write_wav_riff (riffMagic ++ [0, 0, 0, 0] ++ waveMagic
        ++ ([infoChunkEx, dataChunkEx].map mkChunk).flatten)
        (some "T") none none asciiEnc none none
      = .rewritten (riffMagic
          ++ le32enc (waveMagic
              ++ (([infoChunkEx, dataChunkEx].filter
                    (fun c => ! isInfoChunk c)).map mkChunk).flatten
              ++ newInfoChunk (some "T") none none asciiEnc none none).length
          ++ (waveMagic
              ++ (([infoChunkEx, dataChunkEx].filter
                    (fun c => ! isInfoChunk c)).map mkChunk).flatten
              ++ newInfoChunk (some "T") none none asciiEnc none none)) :=
  write_wav_riff_preserves_chunks [infoChunkEx, dataChunkEx] [0, 0, 0, 0]
    (some "T") none none asciiEnc none none rfl (by decide) (Or.inl rfl)

/-- C9: trailing bytes after the last fully parsed chunk that are too few
to hold a chunk header (fewer than 8) are silently dropped by the chunk
walk: they form no opaque chunk among the kept chunks, and the rebuilt
output on the input with the trailing bytes is identical to the rebuilt
output without them. -/
theorem write_wav_riff_drops_trailing (cs : List RChunk) (sz t : Bytes)
    (title artist album : Option String) (enc : String → Bytes) (track disc : Option Int)
    (hsz : sz.length = 4)
    (hc : ∀ c ∈ cs, c.cid.length = 4 ∧ c.payload.length < 4294967296
      ∧ (c.cid = listId → 4 ≤ c.payload.length))
    (ht : t.length < 8) :
    riffWalk ((cs.map mkChunk).flatten ++ t)
      = (cs.filter (fun c => ! isInfoChunk c)).map mkChunk
    ∧ write_wav_riff (riffMagic ++ sz ++ waveMagic ++ ((cs.map mkChunk).flatten ++ t))
        title artist album enc track disc
      = write_wav_riff (riffMagic ++ sz ++ waveMagic ++ (cs.map mkChunk).flatten)
        title artist album enc track disc := by
  have hwalkt : riffWalk ((cs.map mkChunk).flatten ++ t)
      = (cs.filter (fun c => ! isInfoChunk c)).map mkChunk := by
    rw [riffWalk_flatten_append cs t hc, riffWalk_short t ht]
    exact List.append_nil _
  have hwalk : riffWalk ((cs.map mkChunk).flatten)
      = (cs.filter (fun c => ! isInfoChunk c)).map mkChunk := by
    have h0 := riffWalk_flatten_append cs [] hc
    rw [List.append_nil] at h0
    rw [h0, riffWalk_short [] (by simp)]
    exact List.append_nil _
  refine ⟨hwalkt, ?_⟩
  obtain ⟨ht4, ht8, ht12⟩ := wav_take_drop sz ((cs.map mkChunk).flatten ++ t) hsz
  obtain ⟨hu4, hu8, hu12⟩ := wav_take_drop sz ((cs.map mkChunk).flatten) hsz
  simp only [write_wav_riff]
  rw [ht4, ht8, hu4, hu8, ht12, hu12, hwalkt, hwalk]

/-- Witness for C9: five trailing bytes after the chunks change nothing in
the rebuilt output. -/
theorem write_wav_riff_drops_trailing_witness :
    riffWalk (([infoChunkEx, dataChunkEx].map mkChunk).flatten ++ [1, 2, 3, 4, 5])
      = ([infoChunkEx, dataChunkEx].filter (fun c => ! isInfoChunk c)).map mkChunk
    ∧ write_wav_riff (riffMagic ++ [0, 0, 0, 0] ++ waveMagic
          ++ (([infoChunkEx, dataChunkEx].map mkChunk).flatten ++ [1, 2, 3, 4, 5]))
        (some "T") none none asciiEnc none none
      = write_wav_riff (riffMagic ++ [0, 0, 0, 0] ++ waveMagic
          ++ ([infoChunkEx, dataChunkEx].map mkChunk).flatten)
        (some "T") none none asciiEnc none none :=
  write_wav_riff_drops_trailing [infoChunkEx, dataChunkEx] [0, 0, 0, 0] [1, 2, 3, 4, 5]
    (some "T") none none asciiEnc none none rfl (by decide) (by decide)

/-! ### Claim C6 -/

/-- Whether a rewrite result carries an output byte sequence. -/
def isRewritten (r : RiffResult) : Bool :=
  match r with
  | .rewritten _ => true
  | _ => false

/-- A minimal well-formed empty container: the two magics and a declared
size of 4. -/
def wav12 : Bytes := riffMagic ++ le32enc 4 ++ waveMagic

/-- Counterexample to C6 as stated: on a well-formed container with no
title, artist or album but with the track number 5 present, the claim
requires the track field to be encoded into a new metadata chunk, hence a
rewritten file; the code instead returns before doing anything, because
its early-return check only looks at title, artist and album.  No chunk is
written at all. -/
theorem write_wav_riff_track_only_counterexample :
    write_wav_riff wav12 none none none asciiEnc (some 5) none = .untouched
    ∧ isRewritten (write_wav_riff wav12 none none none asciiEnc (some 5) none) = false := by
  decide

/-- C6 as amended: each of the five tag fields that is non-empty is
encoded as the 4-byte field tag, the 4-byte little-endian declared size
(the encoded text plus its NUL terminator), the encoded text, the NUL
terminator and a pad byte when the declared size is odd — but only
provided at least one of title, artist and album is non-empty; when title,
artist and album are all empty no metadata chunk is written and the file
is left untouched, even when a track or disc number is present.  The new
metadata chunk is the concatenation of the sub-chunks of the non-empty
fields, in the fixed order title, artist, album, track, disc, after the
INFO marker. -/
theorem write_wav_riff_tag_encoding (fileData : Bytes) (enc : String → Bytes)
    (title artist album : Option String) (track disc : Option Int) :
    (∀ (tag : Bytes) (t : String), t ≠ "" →
      make_subchunk tag (some t) enc
        = tag ++ le32enc ((enc t).length + 1) ++ (enc t ++ [0])
          ++ (if ((enc t).length + 1) % 2 = 1 then ([0] : Bytes) else []))
    ∧ (∀ tag : Bytes, make_subchunk tag none enc = []
        ∧ make_subchunk tag (some "") enc = [])
    ∧ (newInfoChunk title artist album enc track disc
        = (fun body : Bytes =>
            if body.length = 4 then []
            else listId ++ le32enc body.length ++ body
              ++ (if body.length % 2 = 1 then ([0] : Bytes) else []))
          (infoId
            ++ (make_subchunk inamId title enc
              ++ make_subchunk iartId artist enc
              ++ make_subchunk iprdId album enc
              ++ (match track with
                  | some n => make_subchunk itrkId (some (toString n)) enc
                  | none => [])
              ++ (match disc with
                  | some n => make_subchunk idisId (some (toString n)) enc
                  | none => []))))
    ∧ (truthy title = false → truthy artist = false → truthy album = false →
        write_wav_riff fileData title artist album enc track disc = .untouched) := by
  refine ⟨?_, ?_, rfl, ?_⟩
  · intro tag t ht
    simp only [make_subchunk, if_neg ht]
    simp [List.length_append]
  · intro tag
    exact ⟨rfl, rfl⟩
  · intro h1 h2 h3
    simp only [write_wav_riff]
    rw [if_pos]
    simp [h1, h2, h3]

/-- Witness for C6 as amended: the title sub-chunk of the one-letter title
T, and the untouched result when only a track number is present. -/
theorem write_wav_riff_tag_encoding_witness :
    make_subchunk inamId (some "T") asciiEnc
      = inamId ++ le32enc ((asciiEnc "T").length + 1) ++ (asciiEnc "T" ++ [0])
        ++ (if ((asciiEnc "T").length + 1) % 2 = 1 then ([0] : Bytes) else [])
    ∧ write_wav_riff wav12 none none none asciiEnc (some 5) none = .untouched :=
  ⟨(write_wav_riff_tag_encoding wav12 asciiEnc none none none (some 5) none).1
      inamId "T" (by decide),
    (write_wav_riff_tag_encoding wav12 asciiEnc none none none (some 5) none).2.2.2
      rfl rfl rfl⟩

/-! ### Properties of the planning loop and the deferred pass -/

/-- On a successful plan, the pending entries carry strictly increasing
job indices at or above the starting index, and every event of the loop is
a submission. -/
theorem buildJobs_ok_spec (cueDir : String) (cd : Cd) (o : Opts) (fileExists : String → Bool) :
    ∀ (ts : List Track) (i : ℕ) (evs : List Event) (pend : List Pending),
    buildJobs cueDir cd o fileExists ts i = (evs, .ok pend) →
    (pend.map Pending.idx).Pairwise (· < ·)
    ∧ (∀ p ∈ pend, i ≤ p.idx)
    ∧ (∀ e ∈ evs, ∃ k pth, e = Event.submit k pth) := by
  intro ts
  induction ts with
  | nil =>
    intro i evs pend h
    simp only [buildJobs, Prod.mk.injEq] at h
    obtain ⟨h1, h2⟩ := h
    injection h2 with h2
    subst h1 h2
    simp
  | cons tr rest ih =>
    intro i evs pend h
    simp only [buildJobs] at h
    cases htc : trackCheck cueDir o fileExists tr with
    | error e =>
      rw [htc] at h
      simp at h
    | ok inputFile =>
      rw [htc] at h
      cases hbj : buildJobs cueDir cd o fileExists rest (i + 1) with
      | mk evs2 r2 =>
        rw [hbj] at h
        cases r2 with
        | error e => simp at h
        | ok ps =>
          simp only [Prod.mk.injEq] at h
          obtain ⟨hevs, hpend⟩ := h
          injection hpend with hpend
          subst hevs hpend
          obtain ⟨hpair, hge, hsub⟩ := ih (i + 1) evs2 ps hbj
          refine ⟨?_, ?_, ?_⟩
          · simp only [pendingOf]
            split
            · simp only [List.singleton_append, List.map_cons]
              rw [List.pairwise_cons]
              refine ⟨?_, hpair⟩
              intro x hx
              obtain ⟨p, hp, rfl⟩ := List.mem_map.mp hx
              exact lt_of_lt_of_le (Nat.lt_succ_self i) (hge p hp)
            · simpa using hpair
          · intro p hp
            rcases List.mem_append.mp hp with h1 | h1
            · simp only [pendingOf] at h1
              split at h1
              · rw [List.mem_singleton] at h1
                subst h1
                exact le_refl i
              · simp at h1
            · exact le_trans (Nat.le_succ i) (hge p h1)
          · intro e he
            rcases List.mem_cons.mp he with h1 | h1
            · exact ⟨i, outputPath o inputFile tr, h1⟩
            · exact hsub e h1

/-- Whether an event is a deferred tag write of the given output path. -/
def isTagAt (pth : String) (e : Event) : Bool :=
  match e with
  | .tagWrite _ q => q = pth
  | _ => false

/-- Membership in the deferred pass output: every tag event comes from a
pending entry whose job resolved with exit status zero. -/
theorem mem_tagEvents (outcomes : ℕ → Except String Int) (pend : List Pending)
    (e : Event) (he : e ∈ tagEvents outcomes pend) :
    ∃ p ∈ pend, outcomes p.idx = .ok 0 ∧ e = Event.tagWrite p.idx p.outPath := by
  obtain ⟨p, hp, hf⟩ := List.mem_filterMap.mp he
  refine ⟨p, hp, ?_⟩
  cases ho : outcomes p.idx with
  | error err =>
    rw [ho] at hf
    dsimp only at hf
    exact Option.noConfusion hf
  | ok r =>
    rw [ho] at hf
    dsimp only at hf
    by_cases hr : r = 0
    · subst hr
      rw [if_pos rfl] at hf
      injection hf with hf
      exact ⟨rfl, hf.symm⟩
    · rw [if_neg hr] at hf
      exact Option.noConfusion hf

/-- Unfolding of the deferred pass on a successful entry. -/
theorem tagEvents_cons_tag (outcomes : ℕ → Except String Int) (p : Pending)
    (l : List Pending) (h : outcomes p.idx = .ok 0) :
    tagEvents outcomes (p :: l)
      = Event.tagWrite p.idx p.outPath :: tagEvents outcomes l := by
  simp [tagEvents, List.filterMap_cons, h]

/-- Unfolding of the deferred pass on an entry whose job exited nonzero. -/
theorem tagEvents_cons_fail (outcomes : ℕ → Except String Int) (p : Pending)
    (l : List Pending) (r : Int) (h : outcomes p.idx = .ok r) (hr : r ≠ 0) :
    tagEvents outcomes (p :: l) = tagEvents outcomes l := by
  simp [tagEvents, List.filterMap_cons, h, hr]

/-- Unfolding of the deferred pass on an entry whose job raised. -/
theorem tagEvents_cons_raise (outcomes : ℕ → Except String Int) (p : Pending)
    (l : List Pending) (e : String) (h : outcomes p.idx = .error e) :
    tagEvents outcomes (p :: l) = tagEvents outcomes l := by
  simp [tagEvents, List.filterMap_cons, h]

/-- With pairwise distinct output paths in the pending list, the deferred
pass contains at most one tag write for any given path. -/
theorem tagEvents_path_count (outcomes : ℕ → Except String Int) (pth : String) :
    ∀ pend : List Pending, (pend.map Pending.outPath).Pairwise (· ≠ ·) →
    ((tagEvents outcomes pend).filter (isTagAt pth)).length ≤ 1 := by
  intro pend
  induction pend with
  | nil =>
    intro hnd
    simp [tagEvents]
  | cons p l ih =>
    intro hnd
    rw [List.map_cons, List.pairwise_cons] at hnd
    obtain ⟨hne, hnd2⟩ := hnd
    cases ho : outcomes p.idx with
    | error err =>
      rw [tagEvents_cons_raise outcomes p l err ho]
      exact ih hnd2
    | ok r =>
      by_cases hr : r = 0
      · subst hr
        rw [tagEvents_cons_tag outcomes p l ho]
        rw [List.filter_cons]
        by_cases hmatch : isTagAt pth (Event.tagWrite p.idx p.outPath)
        · rw [if_pos hmatch]
          have hzero : (tagEvents outcomes l).filter (isTagAt pth) = [] := by
            rw [List.filter_eq_nil_iff]
            intro e hel
            obtain ⟨q, hq, hq0, rfl⟩ := mem_tagEvents outcomes l e hel
            have hqp : p.outPath ≠ q.outPath :=
              hne q.outPath (List.mem_map_of_mem Pending.outPath hq)
            have hpeq : p.outPath = pth := by
              simpa [isTagAt] using hmatch
            simp only [isTagAt, decide_eq_true_eq]
            intro hcon
            exact hqp (by rw [hpeq, hcon])
          rw [hzero]
          simp
        · rw [if_neg hmatch]
          exact ih hnd2
      · rw [tagEvents_cons_fail outcomes p l r ho hr]
        exact ih hnd2

/-- When no future raised, the verdict is the decision of whether every
exit status is zero. -/
theorem verdict_all_ok : ∀ l : List (Except String Int),
    (∀ x ∈ l, ∃ r, x = .ok r) →
    verdict l = .ok (decide (∀ x ∈ l, x = .ok 0)) := by
  intro l
  induction l with
  | nil => intro h; simp [verdict]
  | cons x l ih =>
    intro h
    obtain ⟨r, rfl⟩ := h x (List.mem_cons_self x l)
    have htail : ∀ y ∈ l, ∃ s, y = .ok s := fun y hy => h y (List.mem_cons_of_mem _ hy)
    simp only [verdict]
    by_cases hr : r = 0
    · subst hr
      rw [if_pos rfl, ih htail]
      rw [Except.ok.injEq, decide_eq_decide]
      simp [List.forall_mem_cons]
    · rw [if_neg hr]
      have hno : ¬ ∀ y ∈ (Except.ok r : Except String Int) :: l, y = .ok 0 := by
        intro hall
        have hhd := hall _ (List.mem_cons_self _ _)
        injection hhd with hhd
        exact hr hhd
      rw [decide_eq_false hno]

/-- The verdict raises the first exception when every earlier future
resolved with exit status zero: the short-circuit scan reaches it. -/
theorem verdict_prefix_error (e : String) : ∀ (l1 l2 : List (Except String Int)),
    (∀ x ∈ l1, x = .ok 0) → verdict (l1 ++ .error e :: l2) = .error e := by
  intro l1
  induction l1 with
  | nil => intro l2 h; simp [verdict]
  | cons x l ih =>
    intro l2 h
    have hx := h x (List.mem_cons_self x l)
    subst hx
    rw [List.cons_append]
    simp only [verdict]
    rw [if_pos trivial]
    exact ih l2 (fun y hy => h y (List.mem_cons_of_mem _ hy))

/-- When one track fails its structural checks and every earlier track
passes them, the planning loop stops with that error: it has submitted
exactly one job per earlier track (with indices below the failing
position) and no job for the failing track or any later track. -/
theorem buildJobs_error_spec (cueDir : String) (cd : Cd) (o : Opts)
    (fileExists : String → Bool) (bad : Track) (l2 : List Track) (e : RunError)
    (hbad : trackCheck cueDir o fileExists bad = .error e) :
    ∀ (l1 : List Track) (i : ℕ),
    (∀ tr ∈ l1, ∃ s, trackCheck cueDir o fileExists tr = .ok s) →
    ∃ evs, buildJobs cueDir cd o fileExists (l1 ++ bad :: l2) i = (evs, .error e)
      ∧ evs.length = l1.length
      ∧ ∀ ev ∈ evs, ∃ k pth, ev = Event.submit k pth ∧ k < i + l1.length := by
  intro l1
  induction l1 with
  | nil =>
    intro i h
    refine ⟨[], ?_, rfl, ?_⟩
    · simp only [List.nil_append, buildJobs, hbad]
    · intro ev hev
      simp at hev
  | cons tr l ih =>
    intro i h
    obtain ⟨s, hs⟩ := h tr (List.mem_cons_self tr l)
    obtain ⟨evs, hbj, hlen, hsub⟩ := ih (i + 1) (fun x hx => h x (List.mem_cons_of_mem _ hx))
    refine ⟨Event.submit i (outputPath o s tr) :: evs, ?_, ?_, ?_⟩
    · rw [List.cons_append]
      simp only [buildJobs]
      rw [hs]
      dsimp only
      rw [hbj]
    · simp [hlen]
    · intro ev hev
      rcases List.mem_cons.mp hev with h1 | h1
      · refine ⟨i, outputPath o s tr, h1, ?_⟩
        simp only [List.length_cons]
        omega
      · obtain ⟨k, pth, hkp, hik⟩ := hsub ev h1
        refine ⟨k, pth, hkp, ?_⟩
        simp only [List.length_cons]
        omega

/-! ### Concrete runs for the witnesses and counterexamples -/

/-- Empty CD-TEXT. -/
def ctEmptyEx : CdText := ⟨none, none, none, none⟩

/-- A valid track: number 1, start at zero, a referenced audio file. -/
def trackOneEx : Track := ⟨some 1, some (0, 0, 0), some (0, 2, 0), some "a.wav", ctEmptyEx⟩

/-- An invalid track: number 2 with no start time. -/
def trackTwoNoStartEx : Track := ⟨some 2, none, none, some "a.wav", ctEmptyEx⟩

/-- Options for a wav run with metadata enabled. -/
def optsWavEx : Opts := ⟨none, ".", .wav, false, false, 0, false, none⟩

/-- Options for a flac run with metadata enabled. -/
def optsFlacEx : Opts := ⟨none, ".", .flac, false, false, 0, false, none⟩

/-- A cue sheet with one valid track. -/
def cdOneEx : Cd := ⟨ctEmptyEx, none, [trackOneEx]⟩

/-- A cue sheet whose second track has no start time. -/
def cdBadEx : Cd := ⟨ctEmptyEx, none, [trackOneEx, trackTwoNoStartEx]⟩

/-- A cue sheet with two valid tracks. -/
def cdTwoEx : Cd := ⟨ctEmptyEx, none, [trackOneEx, trackOneEx]⟩

/-- An oracle where every encoder invocation succeeds. -/
def allOkEx : ℕ → Except String Int := fun _ => .ok 0

/-- An oracle where job 0 exits with status 1 and job 1 raises. -/
def boomEx : ℕ → Except String Int := fun i => if i = 0 then .ok 1 else .error "boom"

/-! ### Claim C1 -/

/-- C1: in every run of split_cue whose planning loop completed (runs that
abort during planning never reach the deferred pass at all), each output
file receives at most one deferred tag write (the pending entries name
pairwise distinct output paths, as each job owns its own output file), a
tag write for a file happens only when that job resolved with encoder exit
status zero, and the whole trace is the submissions, then the single pool
shutdown barrier that waits for every job, then the tag writes — so no
tag write starts before every submitted job has resolved. -/
theorem split_cue_deferred_tagging (cueDir : String) (cd : Cd) (o : Opts)
    (fileExists : String → Bool) (outcomes : ℕ → Except String Int)
    (evs : List Event) (pend : List Pending)
    (hb : buildJobs cueDir cd o fileExists cd.tracks 0 = (evs, .ok pend))
    (hpaths : (pend.map Pending.outPath).Pairwise (· ≠ ·)) :
    (∀ pth : String,
      ((split_cue cueDir cd o fileExists outcomes).1.filter (isTagAt pth)).length ≤ 1)
    ∧ (∀ i pth, Event.tagWrite i pth ∈ (split_cue cueDir cd o fileExists outcomes).1 →
        outcomes i = .ok 0)
    ∧ (split_cue cueDir cd o fileExists outcomes).1
        = evs ++ Event.poolShutdown :: tagEvents outcomes pend
    ∧ (∀ e ∈ evs, ∃ k p, e = Event.submit k p)
    ∧ (∀ e ∈ tagEvents outcomes pend, ∃ k p, e = Event.tagWrite k p) := by
  obtain ⟨hpair, hge, hsub⟩ :=
    buildJobs_ok_spec cueDir cd o fileExists cd.tracks 0 evs pend hb
  have htr : (split_cue cueDir cd o fileExists outcomes).1
      = evs ++ Event.poolShutdown :: tagEvents outcomes pend := by
    simp only [split_cue, hb]
  refine ⟨?_, ?_, htr, hsub, ?_⟩
  · intro pth
    rw [htr, List.filter_append, List.filter_cons]
    have hevsnil : evs.filter (isTagAt pth) = [] := by
      rw [List.filter_eq_nil_iff]
      intro e he
      obtain ⟨k, p, rfl⟩ := hsub e he
      simp [isTagAt]
    rw [hevsnil, if_neg (by simp [isTagAt])]
    simpa using tagEvents_path_count outcomes pth pend hpaths
  · intro i pth hmem
    rw [htr] at hmem
    rcases List.mem_append.mp hmem with h1 | h1
    · obtain ⟨k, p, heq⟩ := hsub _ h1
      exact absurd heq (by simp)
    · rcases List.mem_cons.mp h1 with h2 | h2
      · exact absurd h2 (by simp)
      · obtain ⟨p, hp, hpo, heq⟩ := mem_tagEvents outcomes pend _ h2
        injection heq with h3 h4
        rw [h3]
        exact hpo
  · intro e he
    obtain ⟨p, hp, hpo, rfl⟩ := mem_tagEvents outcomes pend e he
    exact ⟨p.idx, p.outPath, rfl⟩

/-- Witness for C1: a one-track wav run with metadata and a succeeding
encoder: the output file is tagged at most once and the trace is the
submission, the barrier, then the deferred tag write. -/
theorem split_cue_deferred_tagging_witness :
    ((split_cue "d" cdOneEx optsWavEx (fun _ => true) allOkEx).1.filter
        (isTagAt "./01 - Unknown.wav")).length ≤ 1
    ∧ (split_cue "d" cdOneEx optsWavEx (fun _ => true) allOkEx).1
        = [Event.submit 0 "./01 - Unknown.wav"] ++ Event.poolShutdown ::
            tagEvents allOkEx [⟨0, "./01 - Unknown.wav", none, none, none, 1, none⟩] :=
  have h := split_cue_deferred_tagging "d" cdOneEx optsWavEx (fun _ => true) allOkEx
    [Event.submit 0 "./01 - Unknown.wav"]
    [⟨0, "./01 - Unknown.wav", none, none, none, 1, none⟩]
    (by decide) (by simp)
  ⟨h.1 "./01 - Unknown.wav", h.2.2.1⟩

/-! ### Claim C2 -/

/-- C2: in every run of split_cue in which all jobs were dispatched (the
planning loop completed) and all resolved with an exit status (none
raised), the returned verdict is true exactly when every encoder
invocation returned exit status zero, and false exactly when some job
failed. -/
theorem split_cue_verdict_iff (cueDir : String) (cd : Cd) (o : Opts)
    (fileExists : String → Bool) (outcomes : ℕ → Except String Int)
    (evs : List Event) (pend : List Pending)
    (hb : buildJobs cueDir cd o fileExists cd.tracks 0 = (evs, .ok pend))
    (hres : ∀ i < cd.tracks.length, ∃ r, outcomes i = .ok r) :
    ((split_cue cueDir cd o fileExists outcomes).2 = .ok true
      ↔ ∀ i < cd.tracks.length, outcomes i = .ok 0)
    ∧ ((split_cue cueDir cd o fileExists outcomes).2 = .ok false
      ↔ ¬ ∀ i < cd.tracks.length, outcomes i = .ok 0) := by
  have hmap : ∀ x ∈ (List.range cd.tracks.length).map outcomes, ∃ r, x = .ok r := by
    intro x hx
    obtain ⟨i, hi, rfl⟩ := List.mem_map.mp hx
    exact hres i (List.mem_range.mp hi)
  have hv := verdict_all_ok _ hmap
  have hres2 : (split_cue cueDir cd o fileExists outcomes).2
      = .ok (decide (∀ x ∈ (List.range cd.tracks.length).map outcomes, x = .ok 0)) := by
    simp only [split_cue, hb, hv]
  have hiff : (∀ x ∈ (List.range cd.tracks.length).map outcomes, x = .ok 0)
      ↔ (∀ i < cd.tracks.length, outcomes i = .ok 0) := by
    constructor
    · intro hall i hi
      exact hall _ (List.mem_map_of_mem outcomes (List.mem_range.mpr hi))
    · intro hall x hx
      obtain ⟨i, hi, rfl⟩ := List.mem_map.mp hx
      exact hall i (List.mem_range.mp hi)
  rw [hres2]
  by_cases hP : ∀ i < cd.tracks.length, outcomes i = .ok 0
  · have hmp : ∀ x ∈ (List.range cd.tracks.length).map outcomes, x = .ok 0 := hiff.mpr hP
    simp [hmp, hP]
  · have hmp : ¬ ∀ x ∈ (List.range cd.tracks.length).map outcomes, x = .ok 0 :=
      fun hc => hP (hiff.mp hc)
    simp [hmp, hP]

/-- Witness for C2: a one-track flac run where the only job succeeds, so
the verdict is true. -/
theorem split_cue_verdict_iff_witness :
    (split_cue "d" cdOneEx optsFlacEx (fun _ => true) allOkEx).2 = .ok true :=
  (split_cue_verdict_iff "d" cdOneEx optsFlacEx (fun _ => true) allOkEx
    [Event.submit 0 "./01 - Unknown.flac"] [] (by decide)
    (fun _ _ => ⟨0, rfl⟩)).1.mpr (fun _ _ => rfl)

/-! ### Claim C3 -/

/-- Counterexample to C3 as stated: with a first valid track and a second
track lacking a start time, split_cue raises the missing-timing error —
but the encoder job of track 1 has already been submitted when it does,
so it is false that no encoder invocation is submitted when the plan
contains a structural error. -/
theorem split_cue_submits_before_error_counterexample :
    split_cue "d" cdBadEx optsFlacEx (fun _ => true) allOkEx
      = ([Event.submit 0 "./01 - Unknown.flac"], .error (.noTiming (some 2))) := by
  decide

/-- C3 as amended: the structural checks (missing start time, unresolvable
or missing audio source) still abort the whole run by raising before any
job of the offending track or of any later track is dispatched — but the
checks run per track inside the planning loop, so the jobs of the earlier
valid tracks have already been submitted, one per track, when the error is
raised; the deferred pass and the barrier are never reached. -/
theorem split_cue_aborts_at_first_invalid (cueDir : String) (cd : Cd) (o : Opts)
    (fileExists : String → Bool) (outcomes : ℕ → Except String Int)
    (l1 l2 : List Track) (bad : Track) (e : RunError)
    (htracks : cd.tracks = l1 ++ bad :: l2)
    (hok : ∀ tr ∈ l1, ∃ s, trackCheck cueDir o fileExists tr = .ok s)
    (hbad : trackCheck cueDir o fileExists bad = .error e) :
    (split_cue cueDir cd o fileExists outcomes).2 = .error e
    ∧ (split_cue cueDir cd o fileExists outcomes).1.length = l1.length
    ∧ ∀ ev ∈ (split_cue cueDir cd o fileExists outcomes).1,
        ∃ k pth, ev = Event.submit k pth ∧ k < l1.length := by
  obtain ⟨evs, hbj, hlen, hsub⟩ :=
    buildJobs_error_spec cueDir cd o fileExists bad l2 e hbad l1 0 hok
  have h0 : buildJobs cueDir cd o fileExists cd.tracks 0 = (evs, .error e) := by
    rw [htracks]
    exact hbj
  have hsc : split_cue cueDir cd o fileExists outcomes = (evs, .error e) := by
    simp only [split_cue, h0]
  rw [hsc]
  refine ⟨rfl, hlen, ?_⟩
  intro ev hev
  obtain ⟨k, pth, hkp, hik⟩ := hsub ev hev
  exact ⟨k, pth, hkp, by omega⟩

/-- Witness for C3 as amended: on the two-track cue sheet whose second
track has no start time, the run aborts with the missing-timing error
after exactly one submission. -/
theorem split_cue_aborts_at_first_invalid_witness :
    (split_cue "d" cdBadEx optsFlacEx (fun _ => true) allOkEx).2
      = .error (.noTiming (some 2))
    ∧ (split_cue "d" cdBadEx optsFlacEx (fun _ => true) allOkEx).1.length = 1 :=
  have h := split_cue_aborts_at_first_invalid "d" cdBadEx optsFlacEx (fun _ => true)
    allOkEx [trackOneEx] [] trackTwoNoStartEx (.noTiming (some 2)) rfl
    (fun tr htr => ⟨"d/a.wav", by rw [List.mem_singleton] at htr; subst htr; rfl⟩)
    rfl
  ⟨h.1, h.2.1⟩

/-! ### Claim C10 -/

/-- Counterexample to C10 as stated: with two flac jobs where job 0 exits
with status 1 and job 1 raises an exception, split_cue returns false — the
verdict generator short-circuits at the first nonzero exit status and
never calls result on the raising future, so the exception is not
propagated. -/
theorem split_cue_short_circuit_counterexample :
    (split_cue "d" cdTwoEx optsFlacEx (fun _ => true) boomEx).2 = .ok false
    ∧ boomEx 1 = .error "boom" := by
  decide

/-- C10 as amended: when the encoder invocation of some job raises and
every job submitted before it resolved with exit status zero, the final
verdict computation re-raises that exception, so split_cue propagates it
instead of returning a boolean (the deferred-tag loop itself catches it);
when an earlier job has a nonzero exit status instead, the verdict
short-circuits to false first. -/
theorem split_cue_propagates_first_exception (cueDir : String) (cd : Cd) (o : Opts)
    (fileExists : String → Bool) (outcomes : ℕ → Except String Int)
    (evs : List Event) (pend : List Pending) (j : ℕ) (e : String)
    (hb : buildJobs cueDir cd o fileExists cd.tracks 0 = (evs, .ok pend))
    (hj : j < cd.tracks.length)
    (hprev : ∀ i < j, outcomes i = .ok 0)
    (hexn : outcomes j = .error e) :
    (split_cue cueDir cd o fileExists outcomes).2 = .error (.jobError e) := by
  obtain ⟨k, hk⟩ : ∃ k, cd.tracks.length - j = k + 1 := ⟨cd.tracks.length - j - 1, by omega⟩
  have hsplit : cd.tracks.length = j + (k + 1) := by omega
  have h1 : List.range cd.tracks.length
      = List.range j ++ (List.range (k + 1)).map (j + ·) := by
    rw [hsplit, List.range_add]
  have h2 : (List.range (k + 1)).map (j + ·)
      = j :: (List.range k).map ((j + ·) ∘ Nat.succ) := by
    rw [List.range_succ_eq_map, List.map_cons, List.map_map]
    simp
  obtain ⟨tail, hmap⟩ : ∃ tail, (List.range cd.tracks.length).map outcomes
      = ((List.range j).map outcomes) ++ .error e :: tail := by
    refine ⟨(List.range k).map (fun x => outcomes (j + (x + 1))), ?_⟩
    rw [h1, List.map_append, h2, List.map_cons, hexn, List.map_map]
    rfl
  have hpre : ∀ x ∈ (List.range j).map outcomes, x = .ok 0 := by
    intro x hx
    obtain ⟨i, hi, rfl⟩ := List.mem_map.mp hx
    exact hprev i (List.mem_range.mp hi)
  have hv : verdict ((List.range cd.tracks.length).map outcomes) = .error e := by
    rw [hmap]
    exact verdict_prefix_error e _ tail hpre
  simp only [split_cue, hb, hv]

/-- Witness for C10 as amended: a one-track run whose only job raises; the
exception is propagated. -/
theorem split_cue_propagates_first_exception_witness :
    (split_cue "d" cdOneEx optsFlacEx (fun _ => true) (fun _ => .error "x")).2
      = .error (.jobError "x") :=
  split_cue_propagates_first_exception "d" cdOneEx optsFlacEx (fun _ => true)
    (fun _ => .error "x") [Event.submit 0 "./01 - Unknown.flac"] [] 0 "x" (by decide)
    (by decide) (fun i hi => absurd hi (by omega)) rfl

end CueSplitter
